import Mathlib

set_option maxHeartbeats 1000000

/-
  Verification of the SDSS bulk FITS downloader (src/download-images.py).

  The development is a shallow embedding of the two program parts the
  specification talks about:
  * the Key Sampler `generate_urls`, embedded as a loop over an explicit
    stream of random draws (a draw records what `random.choice` and
    `random.randint` returned); running out of draws models an execution
    whose random stream was observed only finitely far, so `none` for every
    finite stream is how the embedding expresses non-termination;
  * the Transfer Worker `download_one` plus the Scheduler of `main`,
    embedded as a per-task trace of atomic actions (semaphore acquire,
    resume check, network call, chunked writes, counter increments,
    semaphore release) and a small-step interleaving semantics over a list
    of such tasks, gated by a counting permit pool.
-/

namespace Sdss

/- Configuration constants, copied from the head of the source file. -/

def DOWNLOAD_DIR : String := "../data/raw"

def MAX_CONCURRENT : Nat := 10

def TIMEOUT_SECONDS : Nat := 120

def CHUNK_SIZE : Nat := 1024 * 1024

def NUM_FIELDS : Nat := 500

def BANDS : List String := ["r"]

def RERUN : Nat := 301

/-- The curated pool of `(run, camcol, max_field)` triples (`SDSS_RUNS`). -/
def SDSS_RUNS : List (Nat × Nat × Nat) := [
  (752, 1, 500), (752, 2, 500), (752, 3, 500),
  (756, 1, 400), (756, 2, 400),
  (1033, 1, 500), (1033, 3, 500),
  (1140, 1, 250), (1140, 4, 250),
  (1231, 2, 300), (1231, 5, 300),
  (1336, 1, 400), (1336, 3, 400),
  (1339, 2, 350), (1339, 4, 350),
  (1356, 1, 300), (1356, 6, 300),
  (1359, 2, 250), (1359, 5, 250),
  (1740, 1, 400), (1740, 3, 400),
  (2078, 2, 300), (2078, 4, 300),
  (2190, 1, 250), (2190, 3, 250),
  (2505, 1, 350), (2505, 3, 350),
  (2570, 2, 300), (2570, 4, 300),
  (2583, 1, 250), (2583, 5, 250),
  (2662, 1, 300), (2662, 3, 300),
  (2700, 2, 250), (2700, 6, 250),
  (2728, 1, 300), (2728, 4, 300),
  (2820, 1, 250), (2820, 3, 250),
  (2873, 2, 300), (2873, 5, 300),
  (3225, 1, 200), (3225, 3, 200),
  (3325, 2, 250), (3325, 4, 250),
  (3388, 1, 300), (3388, 3, 300),
  (3434, 2, 200), (3434, 6, 200),
  (3437, 1, 250),
  (4128, 1, 250), (4128, 3, 250),
  (4145, 2, 200), (4145, 4, 200),
  (4157, 1, 200), (4157, 3, 200),
  (4184, 2, 250), (4184, 5, 250),
  (4188, 1, 200), (4188, 4, 200),
  (4198, 1, 200),
  (4207, 2, 200), (4207, 3, 200),
  (4263, 1, 200), (4263, 4, 200),
  (4288, 2, 200), (4288, 5, 200),
  (5314, 1, 200), (5314, 3, 200),
  (5566, 2, 200), (5566, 4, 200),
  (5590, 1, 200), (5590, 3, 200),
  (5597, 2, 150), (5597, 5, 150),
  (5610, 1, 200), (5610, 4, 200),
  (5633, 2, 150), (5633, 3, 150),
  (5642, 1, 150), (5642, 6, 150),
  (5646, 1, 150), (5646, 3, 150),
  (5709, 2, 200), (5709, 4, 200),
  (5744, 1, 200), (5744, 3, 200),
  (5759, 2, 150), (5759, 5, 150),
  (5770, 1, 150),
  (5776, 1, 200), (5776, 3, 200),
  (5781, 2, 200), (5781, 4, 200),
  (5792, 1, 150), (5792, 6, 150),
  (5800, 1, 200), (5800, 3, 200),
  (5813, 2, 150), (5813, 5, 150),
  (5823, 1, 150), (5823, 4, 150),
  (5836, 2, 200), (5836, 3, 200),
  (5853, 1, 150), (5853, 6, 150),
  (5866, 1, 200), (5866, 4, 200),
  (5878, 2, 150), (5878, 5, 150),
  (5898, 1, 150), (5898, 3, 150),
  (5905, 2, 200), (5905, 4, 200),
  (6074, 1, 200), (6074, 3, 200),
  (6162, 2, 150), (6162, 4, 150),
  (6283, 1, 150), (6283, 5, 150),
  (6314, 2, 200), (6314, 3, 200),
  (6383, 1, 150), (6383, 4, 150),
  (6442, 2, 150), (6442, 6, 150),
  (6462, 1, 200), (6462, 3, 200),
  (6476, 2, 150), (6476, 5, 150),
  (6501, 1, 150), (6501, 4, 150),
  (6513, 2, 200), (6513, 3, 200),
  (6537, 1, 150), (6537, 6, 150),
  (6548, 1, 200), (6548, 4, 200),
  (6564, 2, 150), (6564, 5, 150),
  (6580, 1, 150), (6580, 3, 150),
  (6596, 2, 200), (6596, 4, 200),
  (6614, 1, 150), (6614, 6, 150),
  (6625, 1, 200), (6625, 3, 200),
  (6640, 2, 150), (6640, 5, 150),
  (6648, 1, 150), (6648, 4, 150)]

/-- Zero padding, modelling the Python format specifier `{n:0wd}`. -/
def padZ (w : Nat) (n : Nat) : String :=
  let s := toString n
  String.mk (List.replicate (w - s.length) '0') ++ s

/-- The URL template of `generate_urls` (the f-string at lines 139-142). -/
def frameUrl (run camcol field : Nat) (band : String) : String :=
  "https://data.sdss.org/sas/dr17/eboss/photoObj/frames/" ++ toString RERUN ++ "/" ++
    toString run ++ "/" ++ toString camcol ++ "/frame-" ++ band ++ "-" ++
    padZ 6 run ++ "-" ++ toString camcol ++ "-" ++ padZ 4 field ++ ".fits.bz2"

/-- One iteration's worth of randomness inside the sampling loop: the index
into the pool chosen by `random.choice(SDSS_RUNS)` and the field value
returned by `random.randint(11, min(max_field, 500))`. -/
structure Draw where
  idx : Nat
  field : Nat
  deriving DecidableEq

/-- A draw the random library can actually produce: the index is in range and
the field lies in the inclusive interval `[11, min(max_field, 500)]`. -/
def ValidDraw (pool : List (Nat × Nat × Nat)) (d : Draw) : Prop :=
  d.idx < pool.length ∧ 11 ≤ d.field ∧ d.field ≤ min (pool.getD d.idx (0, 0, 0)).2.2 500

instance (pool : List (Nat × Nat × Nat)) (d : Draw) : Decidable (ValidDraw pool d) :=
  inferInstanceAs (Decidable (_ ∧ _ ∧ _))

/-- The `while len(fields_picked) < n_fields` loop of `generate_urls`,
consuming one `Draw` per iteration.  `fields_picked` is represented as the
list of accepted keys in acceptance order (duplicates are rejected before
insertion, exactly as `if key in fields_picked: continue` does), and `urls`
accumulates one URL per band for every accepted key.  When the supplied
stream of draws runs out before `n` unique keys are accepted the result is
`none`; a run of the Python loop that terminates corresponds to a finite
stream of draws on which the result is `some`. -/
def genLoop (pool : List (Nat × Nat × Nat)) (bands : List String) (n : Nat) :
    List Draw → List (Nat × Nat × Nat) → List String →
      Option (List (Nat × Nat × Nat) × List String)
  | draws, picked, urls =>
    if n ≤ picked.length then some (picked, urls)
    else
      match draws with
      | [] => none
      | d :: rest =>
        let e := pool.getD d.idx (0, 0, 0)
        let key : Nat × Nat × Nat := (e.1, e.2.1, d.field)
        if key ∈ picked then genLoop pool bands n rest picked urls
        else
          genLoop pool bands n rest (picked ++ [key])
            (urls ++ bands.map (fun b => frameUrl e.1 e.2.1 d.field b))

/-- `generate_urls(n_fields)` itself: run the loop from the empty state and
return the URL list. -/
def generate_urls (pool : List (Nat × Nat × Nat)) (bands : List String) (n : Nat)
    (draws : List Draw) : Option (List String) :=
  (genLoop pool bands n draws [] []).map (fun out => out.2)

/-- The total addressable space of compound keys: the union over pool entries
`(run, camcol, max_field)` of `{(run, camcol, f) | 11 ≤ f ≤ min max_field 500}`. -/
def addrSpace (pool : List (Nat × Nat × Nat)) : Finset (Nat × Nat × Nat) :=
  pool.foldr
    (fun e acc => ((Finset.Icc 11 (min e.2.2 500)).image fun f => (e.1, e.2.1, f)) ∪ acc) ∅

lemma mem_addrSpace (pool : List (Nat × Nat × Nat)) (e : Nat × Nat × Nat)
    (he : e ∈ pool) (f : Nat) (h1 : 11 ≤ f) (h2 : f ≤ min e.2.2 500) :
    (e.1, e.2.1, f) ∈ addrSpace pool := by
  induction pool with
  | nil => cases he
  | cons hd tl ih =>
    rcases List.mem_cons.mp he with rfl | he2
    · simp only [addrSpace, List.foldr_cons, Finset.mem_union, Finset.mem_image,
        Finset.mem_Icc]
      exact Or.inl ⟨f, ⟨h1, h2⟩, rfl⟩
    · simp only [addrSpace, List.foldr_cons, Finset.mem_union]
      exact Or.inr (ih he2)

lemma genLoop_invariant (pool : List (Nat × Nat × Nat)) (bands : List String) (n : Nat) :
    ∀ (draws : List Draw) (picked : List (Nat × Nat × Nat)) (urls : List String)
      (out : List (Nat × Nat × Nat) × List String),
      genLoop pool bands n draws picked urls = some out →
      picked.Nodup → picked.length ≤ n → urls.length = picked.length * bands.length →
      out.1.Nodup ∧ out.1.length = n ∧ out.2.length = n * bands.length := by
  intro draws
  induction draws with
  | nil =>
    intro picked urls out h hnd hle hlen
    rw [genLoop] at h
    by_cases hstop : n ≤ picked.length
    · rw [if_pos hstop] at h
      cases h
      have : picked.length = n := Nat.le_antisymm hle hstop
      exact ⟨hnd, this, by rw [hlen, this]⟩
    · rw [if_neg hstop] at h
      cases h
  | cons d rest ih =>
    intro picked urls out h hnd hle hlen
    rw [genLoop] at h
    by_cases hstop : n ≤ picked.length
    · rw [if_pos hstop] at h
      cases h
      have : picked.length = n := Nat.le_antisymm hle hstop
      exact ⟨hnd, this, by rw [hlen, this]⟩
    · rw [if_neg hstop] at h
      by_cases hmem :
          ((pool.getD d.idx (0, 0, 0)).1, (pool.getD d.idx (0, 0, 0)).2.1, d.field) ∈ picked
      · simp only [if_pos hmem] at h
        exact ih picked urls out h hnd hle hlen
      · simp only [if_neg hmem] at h
        refine ih _ _ out h ?_ ?_ ?_
        · rw [List.nodup_append]
          refine ⟨hnd, List.nodup_singleton _, fun a ha hb => ?_⟩
          simp only [List.mem_singleton] at hb
          subst hb
          exact hmem ha
        · have : picked.length < n := Nat.lt_of_not_le hstop
          simp only [List.length_append, List.length_cons, List.length_nil]
          omega
        · simp only [List.length_append, List.length_map, List.length_cons,
            List.length_nil, hlen]
          ring

lemma genLoop_none (pool : List (Nat × Nat × Nat)) (bands : List String) (n : Nat)
    (hcard : (addrSpace pool).card < n) :
    ∀ (draws : List Draw), (∀ d ∈ draws, ValidDraw pool d) →
      ∀ (picked : List (Nat × Nat × Nat)) (urls : List String),
        picked.Nodup → (∀ k ∈ picked, k ∈ addrSpace pool) →
        genLoop pool bands n draws picked urls = none := by
  intro draws
  induction draws with
  | nil =>
    intro _ picked urls hnd hsub
    rw [genLoop]
    have hlen : picked.length ≤ (addrSpace pool).card := by
      have h1 : picked.toFinset.card = picked.length := List.toFinset_card_of_nodup hnd
      have h2 : picked.toFinset ⊆ addrSpace pool :=
        fun x hx => hsub x (List.mem_toFinset.mp hx)
      calc picked.length = picked.toFinset.card := h1.symm
        _ ≤ (addrSpace pool).card := Finset.card_le_card h2
    rw [if_neg (by omega)]
  | cons d rest ih =>
    intro hv picked urls hnd hsub
    rw [genLoop]
    have hlen : picked.length ≤ (addrSpace pool).card := by
      have h1 : picked.toFinset.card = picked.length := List.toFinset_card_of_nodup hnd
      have h2 : picked.toFinset ⊆ addrSpace pool :=
        fun x hx => hsub x (List.mem_toFinset.mp hx)
      calc picked.length = picked.toFinset.card := h1.symm
        _ ≤ (addrSpace pool).card := Finset.card_le_card h2
    rw [if_neg (by omega)]
    have hvd : ValidDraw pool d := hv d (List.mem_cons_self d rest)
    have hvrest : ∀ d2 ∈ rest, ValidDraw pool d2 :=
      fun d2 h2 => hv d2 (List.mem_cons_of_mem d h2)
    have hkey :
        ((pool.getD d.idx (0, 0, 0)).1, (pool.getD d.idx (0, 0, 0)).2.1, d.field) ∈
          addrSpace pool := by
      obtain ⟨hidx, hlo, hhi⟩ := hvd
      have hmemp : pool.getD d.idx (0, 0, 0) ∈ pool := by
        rw [List.getD_eq_getElem _ _ hidx]
        exact List.getElem_mem hidx
      exact mem_addrSpace pool _ hmemp d.field hlo hhi
    by_cases hmem :
        ((pool.getD d.idx (0, 0, 0)).1, (pool.getD d.idx (0, 0, 0)).2.1, d.field) ∈ picked
    · simp only [if_pos hmem]
      exact ih hvrest picked urls hnd hsub
    · simp only [if_neg hmem]
      refine ih hvrest _ _ ?_ ?_
      · rw [List.nodup_append]
        refine ⟨hnd, List.nodup_singleton _, fun a ha hb => ?_⟩
        simp only [List.mem_singleton] at hb
        subst hb
        exact hmem ha
      · intro k hk
        rcases List.mem_append.mp hk with hk | hk
        · exact hsub k hk
        · simp only [List.mem_singleton] at hk
          exact hk ▸ hkey

/-- C2: for every run in which the sampling loop terminates, the accepted
list of compound keys has no duplicates and exactly `n` elements, and the
emitted URL list has length exactly `n * |bands|` (one task per accepted key
per category). -/
theorem sampler_uniqueness_fanout (pool : List (Nat × Nat × Nat)) (bands : List String)
    (n : Nat) (draws : List Draw) (picked : List (Nat × Nat × Nat)) (urls : List String)
    (h : genLoop pool bands n draws [] [] = some (picked, urls)) :
    picked.Nodup ∧ picked.length = n ∧ urls.length = n * bands.length :=
  genLoop_invariant pool bands n draws [] [] (picked, urls) h List.nodup_nil
    (Nat.zero_le n) (by simp)

/-- Concrete two-draw run of the sampler used to witness C2. -/
def drawsW : List Draw := [⟨0, 11⟩, ⟨0, 12⟩]

def pickedW : List (Nat × Nat × Nat) := [(752, 1, 11), (752, 1, 12)]

def urlsW : List String := [frameUrl 752 1 11 "r", frameUrl 752 1 12 "r"]

theorem sampler_uniqueness_fanout_witness :
    pickedW.Nodup ∧ pickedW.length = 2 ∧ urlsW.length = 2 * BANDS.length :=
  sampler_uniqueness_fanout SDSS_RUNS BANDS 2 drawsW pickedW urlsW (by rfl)

/-- C8: if the target count exceeds the total addressable space of unique
compound keys the pool can supply, the rejection-sampling loop never
terminates: for every finite stream of valid draws, however long, the loop
is still running (the embedding returns `none`); there is no retry cap that
would stop it earlier. -/
theorem sampler_nontermination (pool : List (Nat × Nat × Nat)) (bands : List String)
    (n : Nat) (hcard : (addrSpace pool).card < n)
    (draws : List Draw) (hv : ∀ d ∈ draws, ValidDraw pool d) :
    genLoop pool bands n draws [] [] = none :=
  genLoop_none pool bands n hcard draws hv [] [] List.nodup_nil (by intro k hk; cases hk)

theorem sampler_nontermination_witness :
    genLoop [(752, 1, 11)] ["r"] 2 [⟨0, 11⟩, ⟨0, 11⟩] [] [] = none :=
  sampler_nontermination [(752, 1, 11)] ["r"] 2 (by decide) [⟨0, 11⟩, ⟨0, 11⟩] (by decide)

/-
  The Transfer Worker `download_one` and the Scheduler of `main`.

  Each task is described by a `TaskEnv`: whether its destination file already
  exists when the resume check runs, and how the network behaves for it.
  `download_one` maps an environment to the finite trace of atomic actions
  the worker body performs, in program order; the scheduler semantics below
  interleaves these traces, with `Action.acquire` gated by the permit count,
  exactly as `async with semaphore:` gates entry of the body.
-/

/-- The four outcome counters of the shared progress dictionary. -/
inductive CKind
  | done
  | failed
  | missing
  | skipped
  deriving DecidableEq

/-- What the transport does for one task.  `timeout` is an
`asyncio.TimeoutError` raised while the request is in flight, `fault` any
other exception there; `respond code body abort` is a response with HTTP
status `code` whose body (relevant only when the status is 200) streams the
chunks of `body` and then, when `abort = some isTimeout`, raises mid-stream
(a timeout when `isTimeout`, another transport fault otherwise). -/
inductive NetBehavior
  | timeout
  | fault
  | respond (code : Nat) (body : List Nat) (abort : Option Bool)
  deriving DecidableEq

/-- Per-task environment: the resume-check result and the transport model. -/
structure TaskEnv where
  fileExists : Bool
  behavior : NetBehavior
  deriving DecidableEq

/-- Atomic actions of the worker body, in the order the code performs them. -/
inductive Action
  | acquire
  | release
  | checkExists
  | netCall
  | openFile
  | writeChunk (n : Nat)
  | closeFile
  | printLine
  | incr (k : CKind)
  deriving DecidableEq

/-- The part of the worker body after the resume check and the `session.get`
call: status classification and, on 200, the streamed chunked write
(lines 160-186 of the source). -/
def netPart : NetBehavior → List Action
  | .timeout => [.printLine, .incr .failed]
  | .fault => [.printLine, .incr .failed]
  | .respond code body abort =>
    if code = 404 then [.incr .missing]
    else if code ≠ 200 then [.printLine, .incr .failed]
    else
      .openFile ::
        (body.map Action.writeChunk ++
          match abort with
          | none => [.closeFile, .incr .done, .printLine]
          | some _ => [.closeFile, .printLine, .incr .failed])

/-- The whole trace of `download_one` for one task.  The semaphore is
acquired first — in the source `async with semaphore:` wraps the entire
body, including the `os.path.exists` resume check — and released as the
final action on every exit path. -/
def download_one (e : TaskEnv) : List Action :=
  Action.acquire ::
    (Action.checkExists ::
      (if e.fileExists then [Action.incr CKind.skipped]
       else Action.netCall :: netPart e.behavior)) ++ [Action.release]

/-- Effect of one action on the content of the task's destination file
(`none` = no file at `destinationPath`, `some cs` = a file holding the chunk
sizes `cs`).  `open(filepath, "wb")` creates/truncates; each arriving chunk
is appended; nothing ever deletes the file. -/
def applyFile (f : Option (List Nat)) : Action → Option (List Nat)
  | .openFile => some []
  | .writeChunk n =>
    match f with
    | some c => some (c ++ [n])
    | none => none
  | _ => f

/-- Destination-file content after the worker for `e` has run, starting from
content `f0`. -/
def fileAfter (e : TaskEnv) (f0 : Option (List Nat)) : Option (List Nat) :=
  (download_one e).foldl applyFile f0

/-- The shared progress record of `main` (line 207), plus `net`, an
instrumentation counter counting issued network requests (the spec's
"instrumented fake transport"); `target` is the total task count. -/
structure Counters where
  done : Nat
  failed : Nat
  missing : Nat
  skipped : Nat
  net : Nat
  target : Nat
  deriving DecidableEq

/-- Effect of one action on the shared counters: each `incr k` is the
corresponding `progress[k] += 1`; a `netCall` bumps the instrumentation
counter; no action touches `target`. -/
def applyAction (c : Counters) : Action → Counters
  | .incr .done => ⟨c.done + 1, c.failed, c.missing, c.skipped, c.net, c.target⟩
  | .incr .failed => ⟨c.done, c.failed + 1, c.missing, c.skipped, c.net, c.target⟩
  | .incr .missing => ⟨c.done, c.failed, c.missing + 1, c.skipped, c.net, c.target⟩
  | .incr .skipped => ⟨c.done, c.failed, c.missing, c.skipped + 1, c.net, c.target⟩
  | .netCall => ⟨c.done, c.failed, c.missing, c.skipped, c.net + 1, c.target⟩
  | _ => c

/-- Execution state of one task: still running with a consumed prefix and a
remaining suffix of its trace, or finished. -/
inductive Phase
  | inFlight (consumed rem : List Action)
  | finished
  deriving DecidableEq

structure TaskSt where
  env : TaskEnv
  phase : Phase
  deriving DecidableEq

/-- Scheduler state: all submitted tasks plus the shared counters. -/
structure Sched where
  tasks : List TaskSt
  counters : Counters
  deriving DecidableEq

/-- The actions a task has performed so far. -/
def consumedOf (t : TaskSt) : List Action :=
  match t.phase with
  | .inFlight d _ => d
  | .finished => download_one t.env

def isAcq : Action → Bool
  | .acquire => true
  | _ => false

def isRel : Action → Bool
  | .release => true
  | _ => false

def isNetB : Action → Bool
  | .netCall => true
  | _ => false

def isIncrB (k : CKind) : Action → Bool
  | .incr j => decide (j = k)
  | _ => false

/-- A task holds a semaphore permit iff it has performed its `acquire` but
not yet its `release`. -/
def holdsPermit (t : TaskSt) : Bool :=
  match t.phase with
  | .inFlight d _ => d.any isAcq && !(d.any isRel)
  | .finished => false

def lsum {α : Type} (l : List α) (f : α → Nat) : Nat := (l.map f).sum

/-- Number of tasks currently holding a permit. -/
def permitCount (s : Sched) : Nat :=
  lsum s.tasks (fun t => if holdsPermit t then 1 else 0)

def initCounters (n : Nat) : Counters := ⟨0, 0, 0, 0, 0, n⟩

/-- `main` submits every task up front (`asyncio.gather`) with the counters
initialized to zero and `target` set to the total task count. -/
def initSched (envs : List TaskEnv) : Sched :=
  ⟨envs.map (fun e => ⟨e, Phase.inFlight [] (download_one e)⟩), initCounters envs.length⟩

/-- One scheduler step: some task performs its next atomic action (an
`acquire` only when a permit is free, i.e. fewer than `mc` tasks hold one),
or a task whose trace is exhausted retires. -/
inductive Step (mc : Nat) : Sched → Sched → Prop
  | work (s : Sched) (i : Nat) (e : TaskEnv) (d : List Action) (a : Action) (r : List Action)
      (h : s.tasks.get? i = some ⟨e, Phase.inFlight d (a :: r)⟩)
      (hg : a = Action.acquire → permitCount s < mc) :
      Step mc s ⟨s.tasks.set i ⟨e, Phase.inFlight (d ++ [a]) r⟩, applyAction s.counters a⟩
  | finish (s : Sched) (i : Nat) (e : TaskEnv) (d : List Action)
      (h : s.tasks.get? i = some ⟨e, Phase.inFlight d []⟩) :
      Step mc s ⟨s.tasks.set i ⟨e, Phase.finished⟩, s.counters⟩

/-- States reachable from the initial state of a run over `envs` with
concurrency cap `mc`. -/
inductive Reach (mc : Nat) (envs : List TaskEnv) : Sched → Prop
  | refl : Reach mc envs (initSched envs)
  | tail {s s' : Sched} : Reach mc envs s → Step mc s s' → Reach mc envs s'

/-- Every submitted task has reached a terminal outcome. -/
def Complete (s : Sched) : Prop := ∀ t ∈ s.tasks, t.phase = Phase.finished

/-- Some scheduler step is possible. -/
def CanStep (mc : Nat) (s : Sched) : Prop := ∃ s', Step mc s s'

/-- The worker body between the semaphore acquire and release. -/
def midActs (e : TaskEnv) : List Action :=
  Action.checkExists ::
    (if e.fileExists then [Action.incr CKind.skipped]
     else Action.netCall :: netPart e.behavior)

lemma download_one_eq (e : TaskEnv) :
    download_one e = Action.acquire :: midActs e ++ [Action.release] := rfl

lemma netPart_clean (b : NetBehavior) :
    ∀ x ∈ netPart b, isAcq x = false ∧ isRel x = false := by
  intro x hx
  cases b with
  | timeout =>
    simp only [netPart, List.mem_cons, List.not_mem_nil, or_false] at hx
    rcases hx with rfl | rfl
    · exact ⟨rfl, rfl⟩
    · exact ⟨rfl, rfl⟩
  | fault =>
    simp only [netPart, List.mem_cons, List.not_mem_nil, or_false] at hx
    rcases hx with rfl | rfl
    · exact ⟨rfl, rfl⟩
    · exact ⟨rfl, rfl⟩
  | respond code body abort =>
    simp only [netPart] at hx
    split_ifs at hx with h4 h2
    · simp only [List.mem_singleton] at hx
      subst hx
      exact ⟨rfl, rfl⟩
    · simp only [List.mem_cons, List.mem_singleton, List.not_mem_nil, or_false] at hx
      rcases hx with rfl | rfl
      · exact ⟨rfl, rfl⟩
      · exact ⟨rfl, rfl⟩
    · rcases List.mem_cons.mp hx with rfl | hx2
      · exact ⟨rfl, rfl⟩
      rcases List.mem_append.mp hx2 with hx3 | hx3
      · obtain ⟨n, _, rfl⟩ := List.mem_map.mp hx3
        exact ⟨rfl, rfl⟩
      · cases abort with
        | none =>
          simp only [List.mem_cons, List.not_mem_nil, or_false] at hx3
          rcases hx3 with rfl | rfl | rfl
          · exact ⟨rfl, rfl⟩
          · exact ⟨rfl, rfl⟩
          · exact ⟨rfl, rfl⟩
        | some b2 =>
          simp only [List.mem_cons, List.not_mem_nil, or_false] at hx3
          rcases hx3 with rfl | rfl | rfl
          · exact ⟨rfl, rfl⟩
          · exact ⟨rfl, rfl⟩
          · exact ⟨rfl, rfl⟩

lemma midActs_clean (e : TaskEnv) :
    ∀ x ∈ midActs e, isAcq x = false ∧ isRel x = false := by
  intro x hx
  rcases List.mem_cons.mp hx with rfl | hx2
  · exact ⟨rfl, rfl⟩
  by_cases hf : e.fileExists
  · simp only [midActs, hf, if_true, List.mem_singleton] at hx2
    subst hx2
    exact ⟨rfl, rfl⟩
  · simp only [midActs, hf, if_false, Bool.false_eq_true] at hx2
    rcases List.mem_cons.mp hx2 with rfl | hx3
    · exact ⟨rfl, rfl⟩
    · exact netPart_clean e.behavior x hx3

lemma any_false {α : Type} {p : α → Bool} {l : List α} (h : ∀ x ∈ l, p x = false) :
    l.any p = false := by
  induction l with
  | nil => rfl
  | cons hd tl ih =>
    have h1 := h hd (List.mem_cons_self hd tl)
    have h2 : tl.any p = false := ih (fun x hx => h x (List.mem_cons_of_mem hd hx))
    simp [List.any_cons, h1, h2]

lemma append_singleton_split {α : Type} (xs ys zs : List α) (z : α)
    (h : xs ++ ys = zs ++ [z]) (hy : ys ≠ []) :
    ∃ ys0, ys = ys0 ++ [z] ∧ xs ++ ys0 = zs := by
  rcases List.eq_nil_or_concat ys with rfl | ⟨ys0, a, hys⟩
  · exact absurd rfl hy
  · rw [List.concat_eq_append] at hys
    subst hys
    rw [← List.append_assoc] at h
    obtain ⟨h1, h2⟩ := List.append_inj' h rfl
    simp only [List.cons.injEq, and_true] at h2
    exact ⟨ys0, by rw [h2], h1⟩

/-- Characterization of permit holding along a worker trace: a task whose
consumed prefix is `d` (with remainder `r`) holds the permit iff it has
started (the acquire is the very first action) and has not ended (the
release is the very last). -/
lemma holds_char (e : TaskEnv) (d r : List Action) (h : d ++ r = download_one e) :
    (d.any isAcq && !(d.any isRel)) = (decide (d ≠ []) && decide (r ≠ [])) := by
  cases d with
  | nil => simp
  | cons a0 d' =>
    have he : a0 :: (d' ++ r) = Action.acquire :: (midActs e ++ [Action.release]) := by
      rw [← List.cons_append, h, download_one_eq, List.cons_append]
    injection he with h1 h2
    subst h1
    cases r with
    | nil =>
      have hd' : d' = midActs e ++ [Action.release] := by simpa using h2
      subst hd'
      simp [List.any_cons, List.any_append, isAcq, isRel]
    | cons a1 r' =>
      obtain ⟨r0, hr, hd0⟩ :=
        append_singleton_split d' (a1 :: r') (midActs e) Action.release h2 (by simp)
      have hclean : ∀ x ∈ d', isRel x = false := by
        intro x hx
        have hxm : x ∈ midActs e := hd0 ▸ List.mem_append.mpr (Or.inl hx)
        exact (midActs_clean e x hxm).2
      simp [List.any_cons, isAcq, isRel, any_false hclean]

/-- The acquire is performed only as the very first action of a trace. -/
lemma acquire_head (e : TaskEnv) (d r : List Action)
    (h : d ++ Action.acquire :: r = download_one e) : d = [] := by
  cases d with
  | nil => rfl
  | cons a0 d' =>
    exfalso
    rw [download_one_eq] at h
    simp only [List.cons_append] at h
    injection h with h1 h2
    have hmem : Action.acquire ∈ midActs e ++ [Action.release] := by
      rw [← h2]
      exact List.mem_append.mpr (Or.inr (List.mem_cons_self _ _))
    rcases List.mem_append.mp hmem with hm | hm
    · have := (midActs_clean e _ hm).1
      simp [isAcq] at this
    · simp at hm

lemma lsum_set {α : Type} (l : List α) (i : Nat) (x y : α) (f : α → Nat)
    (h : l.get? i = some y) :
    lsum (l.set i x) f + f y = lsum l f + f x := by
  induction l generalizing i with
  | nil => simp at h
  | cons hd tl ih =>
    cases i with
    | zero =>
      simp only [List.get?_cons_zero, Option.some.injEq] at h
      subst h
      simp only [List.set_cons_zero, lsum, List.map_cons, List.sum_cons]
      omega
    | succ j =>
      simp only [List.get?_cons_succ] at h
      have h2 := ih j h
      simp only [List.set_cons_succ, lsum, List.map_cons, List.sum_cons] at h2 ⊢
      omega

lemma lsum_congr {α : Type} (l : List α) (f g : α → Nat) (h : ∀ x ∈ l, f x = g x) :
    lsum l f = lsum l g := by
  induction l with
  | nil => rfl
  | cons hd tl ih =>
    have h1 := h hd (List.mem_cons_self hd tl)
    have h2 := ih (fun x hx => h x (List.mem_cons_of_mem hd hx))
    simp only [lsum, List.map_cons, List.sum_cons] at h2 ⊢
    omega

lemma lsum_const {α : Type} (l : List α) (f : α → Nat) (c : Nat)
    (h : ∀ x ∈ l, f x = c) : lsum l f = c * l.length := by
  induction l with
  | nil => simp [lsum]
  | cons hd tl ih =>
    have h1 := h hd (List.mem_cons_self hd tl)
    have h2 := ih (fun x hx => h x (List.mem_cons_of_mem hd hx))
    simp only [lsum, List.map_cons, List.sum_cons, List.length_cons] at h2 ⊢
    rw [h1, h2]
    ring

lemma lsum_pos {α : Type} (l : List α) (f : α → Nat) (h : 0 < lsum l f) :
    ∃ x ∈ l, 0 < f x := by
  induction l with
  | nil => simp [lsum] at h
  | cons hd tl ih =>
    simp only [lsum, List.map_cons, List.sum_cons] at h
    by_cases hh : 0 < f hd
    · exact ⟨hd, List.mem_cons_self hd tl, hh⟩
    · have : 0 < lsum tl f := by
        simp only [lsum]
        omega
      obtain ⟨x, hx, hfx⟩ := ih this
      exact ⟨x, List.mem_cons_of_mem hd hx, hfx⟩

lemma lsum_add {α : Type} (l : List α) (f g : α → Nat) :
    lsum l f + lsum l g = lsum l (fun x => f x + g x) := by
  induction l with
  | nil => rfl
  | cons hd tl ih =>
    simp only [lsum, List.map_cons, List.sum_cons] at ih ⊢
    omega

lemma lsum_map {α β : Type} (l : List α) (g : α → β) (f : β → Nat) :
    lsum (l.map g) f = lsum l (fun x => f (g x)) := by
  unfold lsum
  rw [List.map_map]
  rfl

lemma map_env_set (l : List TaskSt) (i : Nat) (e : TaskEnv) (p0 p1 : Phase)
    (h : l.get? i = some ⟨e, p0⟩) :
    (l.set i ⟨e, p1⟩).map (fun t => t.env) = l.map (fun t => t.env) := by
  induction l generalizing i with
  | nil => simp at h
  | cons hd tl ih =>
    cases i with
    | zero =>
      simp only [List.get?_cons_zero, Option.some.injEq] at h
      subst h
      simp [List.set_cons_zero]
    | succ j =>
      simp only [List.get?_cons_succ] at h
      simp [List.set_cons_succ, ih j h]

/-- Well-formedness: every running task's consumed and remaining actions
split its own worker trace. -/
def WF (s : Sched) : Prop :=
  ∀ t ∈ s.tasks, ∀ d r, t.phase = Phase.inFlight d r → d ++ r = download_one t.env

/-- Total count, over all tasks, of already-performed actions satisfying `p`. -/
def fld (p : Action → Bool) (ts : List TaskSt) : Nat :=
  lsum ts (fun t => (consumedOf t).countP p)

/-- The run invariant: task environments are fixed, every split is
well-formed, and each shared counter equals the number of corresponding
actions performed so far, with `target` pinned to the task count. -/
def Inv (envs : List TaskEnv) (s : Sched) : Prop :=
  s.tasks.map (fun t => t.env) = envs ∧ WF s ∧
  s.counters = ⟨fld (isIncrB CKind.done) s.tasks, fld (isIncrB CKind.failed) s.tasks,
    fld (isIncrB CKind.missing) s.tasks, fld (isIncrB CKind.skipped) s.tasks,
    fld isNetB s.tasks, envs.length⟩

lemma fld_set_work (ts : List TaskSt) (i : Nat) (e : TaskEnv) (d : List Action)
    (a : Action) (r : List Action) (p : Action → Bool)
    (h : ts.get? i = some ⟨e, Phase.inFlight d (a :: r)⟩) :
    fld p (ts.set i ⟨e, Phase.inFlight (d ++ [a]) r⟩) =
      fld p ts + (if p a then 1 else 0) := by
  have h2 := lsum_set ts i ⟨e, Phase.inFlight (d ++ [a]) r⟩ ⟨e, Phase.inFlight d (a :: r)⟩
    (fun t => (consumedOf t).countP p) h
  unfold fld
  simp only [consumedOf, List.countP_append, List.countP_cons, List.countP_nil] at h2 ⊢
  omega

lemma fld_set_finish (ts : List TaskSt) (i : Nat) (e : TaskEnv) (d : List Action)
    (p : Action → Bool)
    (h : ts.get? i = some ⟨e, Phase.inFlight d []⟩) (hwf : d = download_one e) :
    fld p (ts.set i ⟨e, Phase.finished⟩) = fld p ts := by
  have h2 := lsum_set ts i ⟨e, Phase.finished⟩ ⟨e, Phase.inFlight d []⟩
    (fun t => (consumedOf t).countP p) h
  unfold fld
  simp only [consumedOf] at h2 ⊢
  rw [hwf] at h2
  omega

lemma reach_inv (mc : Nat) (envs : List TaskEnv) (s : Sched) (h : Reach mc envs s) :
    Inv envs s := by
  induction h with
  | refl =>
    refine ⟨?_, ?_, ?_⟩
    · have hcomp : ((fun (t : TaskSt) => t.env) ∘
          fun e => (⟨e, Phase.inFlight [] (download_one e)⟩ : TaskSt)) = id := rfl
      simp only [initSched, List.map_map, hcomp, List.map_id]
    · intro t ht d r hp
      simp only [initSched, List.mem_map] at ht
      obtain ⟨e, _, rfl⟩ := ht
      simp only at hp
      injection hp with hd hr
      rw [← hd, ← hr]
      rfl
    · have hz : ∀ (p : Action → Bool),
          fld p (envs.map fun e => (⟨e, Phase.inFlight [] (download_one e)⟩ : TaskSt)) = 0 := by
        intro p
        unfold fld
        rw [lsum_const _ _ 0 ?_, Nat.zero_mul]
        intro t ht
        simp only [List.mem_map] at ht
        obtain ⟨e, _, rfl⟩ := ht
        rfl
      simp only [initSched, initCounters, List.length_map]
      simp [hz]
  | @tail s1 s2 hr hs ih =>
    obtain ⟨ih1, ih2, ih3⟩ := ih
    cases hs with
    | work i e d a r h hg =>
      have hmem : (⟨e, Phase.inFlight d (a :: r)⟩ : TaskSt) ∈ s1.tasks := List.get?_mem h
      have hwf : d ++ (a :: r) = download_one e := ih2 _ hmem d (a :: r) rfl
      have F : ∀ p, fld p (s1.tasks.set i ⟨e, Phase.inFlight (d ++ [a]) r⟩) =
          fld p s1.tasks + (if p a then 1 else 0) := fun p => fld_set_work s1.tasks i e d a r p h
      refine ⟨?_, ?_, ?_⟩
      · rw [map_env_set s1.tasks i e _ _ h]
        exact ih1
      · intro t ht d' r' hp
        rcases List.mem_or_eq_of_mem_set ht with ht2 | rfl
        · exact ih2 t ht2 d' r' hp
        · simp only at hp
          injection hp with hd' hr'
          rw [← hd', ← hr', List.append_assoc]
          simpa using hwf
      · simp only [F, ih3]
        cases a with
        | acquire => simp [applyAction, isIncrB, isNetB]
        | release => simp [applyAction, isIncrB, isNetB]
        | checkExists => simp [applyAction, isIncrB, isNetB]
        | netCall => simp [applyAction, isIncrB, isNetB]
        | openFile => simp [applyAction, isIncrB, isNetB]
        | writeChunk n => simp [applyAction, isIncrB, isNetB]
        | closeFile => simp [applyAction, isIncrB, isNetB]
        | printLine => simp [applyAction, isIncrB, isNetB]
        | incr k =>
          cases k with
          | done => simp [applyAction, isIncrB, isNetB]
          | failed => simp [applyAction, isIncrB, isNetB]
          | missing => simp [applyAction, isIncrB, isNetB]
          | skipped => simp [applyAction, isIncrB, isNetB]
    | finish i e d h =>
      have hmem : (⟨e, Phase.inFlight d []⟩ : TaskSt) ∈ s1.tasks := List.get?_mem h
      have hwf : d = download_one e := by
        have := ih2 _ hmem d [] rfl
        simpa using this
      have F : ∀ p, fld p (s1.tasks.set i ⟨e, Phase.finished⟩) = fld p s1.tasks :=
        fun p => fld_set_finish s1.tasks i e d p h hwf
      refine ⟨?_, ?_, ?_⟩
      · rw [map_env_set s1.tasks i e _ _ h]
        exact ih1
      · intro t ht d' r' hp
        rcases List.mem_or_eq_of_mem_set ht with ht2 | rfl
        · exact ih2 t ht2 d' r' hp
        · simp only at hp
          cases hp
      · simp only [F, ih3]

/- Evaluated worker traces for each class of task environment. -/

lemma download_one_skip (b : NetBehavior) :
    download_one ⟨true, b⟩ =
      [Action.acquire, Action.checkExists, Action.incr CKind.skipped, Action.release] := rfl

lemma download_one_timeoutE :
    download_one ⟨false, NetBehavior.timeout⟩ =
      [Action.acquire, Action.checkExists, Action.netCall, Action.printLine,
        Action.incr CKind.failed, Action.release] := rfl

lemma download_one_faultE :
    download_one ⟨false, NetBehavior.fault⟩ =
      [Action.acquire, Action.checkExists, Action.netCall, Action.printLine,
        Action.incr CKind.failed, Action.release] := rfl

lemma download_one_404 (body : List Nat) (abort : Option Bool) :
    download_one ⟨false, NetBehavior.respond 404 body abort⟩ =
      [Action.acquire, Action.checkExists, Action.netCall, Action.incr CKind.missing,
        Action.release] := rfl

lemma download_one_err (code : Nat) (body : List Nat) (abort : Option Bool)
    (h4 : code ≠ 404) (h2 : code ≠ 200) :
    download_one ⟨false, NetBehavior.respond code body abort⟩ =
      [Action.acquire, Action.checkExists, Action.netCall, Action.printLine,
        Action.incr CKind.failed, Action.release] := by
  simp [download_one, netPart, h4, h2]

lemma download_one_ok (body : List Nat) :
    download_one ⟨false, NetBehavior.respond 200 body none⟩ =
      [Action.acquire, Action.checkExists, Action.netCall, Action.openFile] ++
        body.map Action.writeChunk ++
        [Action.closeFile, Action.incr CKind.done, Action.printLine, Action.release] := by
  simp [download_one, netPart]

lemma download_one_abort (body : List Nat) (b : Bool) :
    download_one ⟨false, NetBehavior.respond 200 body (some b)⟩ =
      [Action.acquire, Action.checkExists, Action.netCall, Action.openFile] ++
        body.map Action.writeChunk ++
        [Action.closeFile, Action.printLine, Action.incr CKind.failed, Action.release] := by
  simp [download_one, netPart]

lemma countP_writeChunks (p : Action → Bool) (hp : ∀ n, p (Action.writeChunk n) = false)
    (body : List Nat) : (body.map Action.writeChunk).countP p = 0 := by
  induction body with
  | nil => rfl
  | cons n tl ih => simp [List.countP_cons, hp, ih]

/-- Total number of counter increments in a trace. -/
def incrCount (l : List Action) : Nat :=
  l.countP (isIncrB CKind.done) + l.countP (isIncrB CKind.failed) +
    l.countP (isIncrB CKind.missing) + l.countP (isIncrB CKind.skipped)

lemma incrCount_append (l1 l2 : List Action) :
    incrCount (l1 ++ l2) = incrCount l1 + incrCount l2 := by
  simp only [incrCount, List.countP_append]
  ring

lemma incrCount_chunks (body : List Nat) : incrCount (body.map Action.writeChunk) = 0 := by
  unfold incrCount
  rw [countP_writeChunks _ (fun _ => rfl) body, countP_writeChunks _ (fun _ => rfl) body,
    countP_writeChunks _ (fun _ => rfl) body, countP_writeChunks _ (fun _ => rfl) body]

/-- Every worker trace performs exactly one counter increment: each task
reaches exactly one terminal outcome and records it exactly once. -/
lemma incrCount_download_one (e : TaskEnv) : incrCount (download_one e) = 1 := by
  obtain ⟨fe, b⟩ := e
  cases fe with
  | true => rw [download_one_skip]; decide
  | false =>
    cases b with
    | timeout => rw [download_one_timeoutE]; decide
    | fault => rw [download_one_faultE]; decide
    | respond code body abort =>
      by_cases h4 : code = 404
      · subst h4
        rw [download_one_404]
        decide
      · by_cases h2 : code = 200
        · subst h2
          cases abort with
          | none =>
            rw [download_one_ok, incrCount_append, incrCount_append, incrCount_chunks]
            decide
          | some bb =>
            rw [download_one_abort, incrCount_append, incrCount_append, incrCount_chunks]
            decide
        · rw [download_one_err code body abort h4 h2]
          decide

/-- The permit-count bound: a reachable state never has more than `mc`
tasks holding a permit. -/
lemma reach_permit (mc : Nat) (envs : List TaskEnv) (s : Sched) (h : Reach mc envs s) :
    permitCount s ≤ mc := by
  induction h with
  | refl =>
    have hz : permitCount (initSched envs) = 0 := by
      unfold permitCount
      rw [lsum_const _ _ 0 ?_, Nat.zero_mul]
      intro t ht
      simp only [initSched, List.mem_map] at ht
      obtain ⟨e, _, rfl⟩ := ht
      rfl
    rw [hz]
    exact Nat.zero_le mc
  | @tail s1 s2 hr hs ih =>
    obtain ⟨-, hwfall, -⟩ := reach_inv mc envs s1 hr
    cases hs with
    | work i e d a r h hg =>
      have hmem := List.get?_mem h
      have hwf : d ++ (a :: r) = download_one e := hwfall _ hmem d (a :: r) rfl
      have hold : holdsPermit ⟨e, Phase.inFlight d (a :: r)⟩ =
          (decide (d ≠ []) && decide (a :: r ≠ [])) := holds_char e d (a :: r) hwf
      have hnew : holdsPermit ⟨e, Phase.inFlight (d ++ [a]) r⟩ =
          (decide (d ++ [a] ≠ []) && decide (r ≠ [])) :=
        holds_char e (d ++ [a]) r (by rw [List.append_assoc]; simpa using hwf)
      have hset := lsum_set s1.tasks i ⟨e, Phase.inFlight (d ++ [a]) r⟩
        ⟨e, Phase.inFlight d (a :: r)⟩ (fun t => if holdsPermit t then 1 else 0) h
      simp only [] at hset
      have hnew_le : (if holdsPermit ⟨e, Phase.inFlight (d ++ [a]) r⟩ then 1 else 0) ≤ 1 := by
        split <;> omega
      show lsum (s1.tasks.set i ⟨e, Phase.inFlight (d ++ [a]) r⟩)
        (fun t => if holdsPermit t then 1 else 0) ≤ mc
      cases d with
      | nil =>
        have ha : a = Action.acquire := by
          have h3 : ([] : List Action) ++ a :: r = download_one e := hwf
          rw [download_one_eq] at h3
          simp only [List.nil_append, List.cons_append, List.cons.injEq] at h3
          exact h3.1
        have hlt : permitCount s1 < mc := hg ha
        have hold0 : (if holdsPermit ⟨e, Phase.inFlight ([] : List Action) (a :: r)⟩
            then 1 else 0) = 0 := by
          rw [hold]
          simp
        unfold permitCount at hlt
        rw [hold0] at hset
        omega
      | cons d0 d' =>
        have hold1 : (if holdsPermit ⟨e, Phase.inFlight (d0 :: d') (a :: r)⟩
            then 1 else 0) = 1 := by
          rw [hold]
          simp
        unfold permitCount at ih
        rw [hold1] at hset
        omega
    | finish i e d h =>
      have hmem := List.get?_mem h
      have hwf : d ++ ([] : List Action) = download_one e := hwfall _ hmem d [] rfl
      have hold0 : (if holdsPermit ⟨e, Phase.inFlight d ([] : List Action)⟩
          then 1 else 0) = 0 := by
        have hb : holdsPermit ⟨e, Phase.inFlight d ([] : List Action)⟩ = false := by
          show (d.any isAcq && !(d.any isRel)) = false
          rw [holds_char e d [] hwf]
          simp
        rw [hb]
        rfl
      have hset := lsum_set s1.tasks i ⟨e, Phase.finished⟩
        ⟨e, Phase.inFlight d []⟩ (fun t => if holdsPermit t then 1 else 0) h
      simp only [] at hset
      show lsum (s1.tasks.set i ⟨e, Phase.finished⟩)
        (fun t => if holdsPermit t then 1 else 0) ≤ mc
      unfold permitCount at ih
      rw [hold0] at hset
      have hfin : (if holdsPermit ⟨e, Phase.finished⟩ then 1 else 0) = 0 := rfl
      rw [hfin] at hset
      omega

/-- All permits are released once every task has finished. -/
lemma complete_permit (s : Sched) (hc : Complete s) : permitCount s = 0 := by
  unfold permitCount
  rw [lsum_const _ _ 0 ?_, Nat.zero_mul]
  intro t ht
  have hfin := hc t ht
  simp [holdsPermit, hfin]

/-- Progress: with a positive concurrency cap, an incomplete reachable state
always admits another scheduler step — no task can wedge the run. -/
lemma reach_progress (mc : Nat) (envs : List TaskEnv) (s : Sched) (h : Reach mc envs s)
    (hmc : 0 < mc) (hnc : ¬ Complete s) : CanStep mc s := by
  obtain ⟨-, hwfall, -⟩ := reach_inv mc envs s h
  have hex : ∃ t ∈ s.tasks, t.phase ≠ Phase.finished := by
    by_contra hall
    push_neg at hall
    exact hnc hall
  obtain ⟨t, htmem, htnf⟩ := hex
  obtain ⟨i, hi⟩ := List.get?_of_mem htmem
  obtain ⟨e, ph⟩ := t
  cases ph with
  | finished => exact absurd rfl htnf
  | inFlight d r =>
    cases r with
    | nil => exact ⟨_, Step.finish s i e d hi⟩
    | cons a r' =>
      by_cases ha : a = Action.acquire
      · by_cases hp : permitCount s < mc
        · exact ⟨_, Step.work s i e d a r' hi (fun _ => hp)⟩
        · have hpos : 0 < permitCount s := lt_of_lt_of_le hmc (Nat.le_of_not_lt hp)
          obtain ⟨u, humem, hupos⟩ := lsum_pos s.tasks _ hpos
          have hu : holdsPermit u = true := by
            by_cases hh : holdsPermit u
            · exact hh
            · simp [hh] at hupos
          obtain ⟨j, hj⟩ := List.get?_of_mem humem
          obtain ⟨e2, ph2⟩ := u
          cases ph2 with
          | finished => simp [holdsPermit] at hu
          | inFlight d2 r2 =>
            have hwf2 : d2 ++ r2 = download_one e2 := hwfall _ humem d2 r2 rfl
            have hchar := holds_char e2 d2 r2 hwf2
            simp only [holdsPermit] at hu
            rw [hchar] at hu
            simp only [Bool.and_eq_true, decide_eq_true_eq] at hu
            obtain ⟨hd2, hr2⟩ := hu
            cases r2 with
            | nil => exact absurd rfl hr2
            | cons a2 r2' =>
              have ha2 : a2 ≠ Action.acquire := by
                intro hcon
                subst hcon
                exact hd2 (acquire_head e2 d2 r2' hwf2)
              exact ⟨_, Step.work s j e2 d2 a2 r2' hj (fun hcon => absurd hcon ha2)⟩
      · exact ⟨_, Step.work s i e d a r' hi (fun hcon => absurd hcon ha)⟩

/-- In a completed run every task has consumed exactly its whole trace, so
each counter equals the per-environment count summed over the run's task
environments. -/
lemma complete_fld (envs : List TaskEnv) (s : Sched) (hInv : Inv envs s)
    (hc : Complete s) (p : Action → Bool) :
    fld p s.tasks = lsum envs (fun e => (download_one e).countP p) := by
  obtain ⟨h1, -, -⟩ := hInv
  unfold fld
  have hcg : lsum s.tasks (fun t => (consumedOf t).countP p) =
      lsum s.tasks (fun t => (download_one t.env).countP p) := by
    apply lsum_congr
    intro t ht
    have hfin := hc t ht
    simp [consumedOf, hfin]
  rw [hcg, ← h1, lsum_map]

lemma foldl_writeChunks (body : List Nat) (acc : List Nat) :
    (body.map Action.writeChunk).foldl applyFile (some acc) = some (acc ++ body) := by
  induction body generalizing acc with
  | nil => simp
  | cons n tl ih =>
    simp only [List.map_cons, List.foldl_cons]
    rw [show applyFile (some acc) (Action.writeChunk n) = some (acc ++ [n]) from rfl, ih]
    simp

lemma fileAfter_skip (b : NetBehavior) (f0 : Option (List Nat)) :
    fileAfter ⟨true, b⟩ f0 = f0 := rfl

lemma fileAfter_404 (body : List Nat) (abort : Option Bool) (f0 : Option (List Nat)) :
    fileAfter ⟨false, NetBehavior.respond 404 body abort⟩ f0 = f0 := rfl

lemma fileAfter_err (code : Nat) (body : List Nat) (abort : Option Bool)
    (h4 : code ≠ 404) (h2 : code ≠ 200) (f0 : Option (List Nat)) :
    fileAfter ⟨false, NetBehavior.respond code body abort⟩ f0 = f0 := by
  unfold fileAfter
  rw [download_one_err code body abort h4 h2]
  rfl

lemma fileAfter_netfail (f0 : Option (List Nat)) :
    fileAfter ⟨false, NetBehavior.timeout⟩ f0 = f0 ∧
      fileAfter ⟨false, NetBehavior.fault⟩ f0 = f0 := ⟨rfl, rfl⟩

lemma fileAfter_ok (body : List Nat) :
    fileAfter ⟨false, NetBehavior.respond 200 body none⟩ none = some body := by
  unfold fileAfter
  rw [download_one_ok, List.foldl_append, List.foldl_append]
  have h1 : List.foldl applyFile none
      [Action.acquire, Action.checkExists, Action.netCall, Action.openFile] =
        some ([] : List Nat) := rfl
  rw [h1, foldl_writeChunks, List.nil_append]
  rfl

lemma fileAfter_abort (body : List Nat) (b : Bool) :
    fileAfter ⟨false, NetBehavior.respond 200 body (some b)⟩ none = some body := by
  unfold fileAfter
  rw [download_one_abort, List.foldl_append, List.foldl_append]
  have h1 : List.foldl applyFile none
      [Action.acquire, Action.checkExists, Action.netCall, Action.openFile] =
        some ([] : List Nat) := rfl
  rw [h1, foldl_writeChunks, List.nil_append]
  rfl

lemma countP_chunks_incr (k : CKind) (body : List Nat) :
    (body.map Action.writeChunk).countP (isIncrB k) = 0 :=
  countP_writeChunks _ (fun _ => rfl) body

lemma countP_chunks_net (body : List Nat) :
    (body.map Action.writeChunk).countP isNetB = 0 :=
  countP_writeChunks _ (fun _ => rfl) body

lemma countP_midActs_isAcq (e : TaskEnv) : (midActs e).countP isAcq = 0 :=
  List.countP_eq_zero.mpr (fun a ha => by simp [(midActs_clean e a ha).1])

lemma countP_midActs_isRel (e : TaskEnv) : (midActs e).countP isRel = 0 :=
  List.countP_eq_zero.mpr (fun a ha => by simp [(midActs_clean e a ha).2])

/-- Exactly one permit acquisition per trace. -/
lemma countP_acq (e : TaskEnv) : (download_one e).countP isAcq = 1 := by
  rw [download_one_eq, List.cons_append, List.countP_cons, List.countP_append,
    countP_midActs_isAcq]
  rfl

/-- Exactly one permit release per trace. -/
lemma countP_rel (e : TaskEnv) : (download_one e).countP isRel = 1 := by
  rw [download_one_eq, List.cons_append, List.countP_cons, List.countP_append,
    countP_midActs_isRel]
  rfl

/-- The release is the final action of every trace: the permit is given back
on every exit path. -/
lemma getLast_download_one (e : TaskEnv) :
    (download_one e).getLast? = some Action.release := by
  rw [download_one_eq]
  exact List.getLast?_concat _

/-- Behaviors in which a timeout or another transport fault is raised during
the network or write phase. -/
def isFaulty : NetBehavior → Bool
  | .timeout => true
  | .fault => true
  | .respond code _ (some _) => decide (code = 200)
  | .respond _ _ none => false

/- A concrete complete run over a single already-materialized task, used by
the witnesses below. -/

def envSkip : TaskEnv := ⟨true, NetBehavior.timeout⟩

def sSkipFinal : Sched := ⟨[⟨envSkip, Phase.finished⟩], ⟨0, 0, 0, 1, 0, 1⟩⟩

lemma reach_sSkipFinal : Reach MAX_CONCURRENT [envSkip] sSkipFinal := by
  have st1 : Step MAX_CONCURRENT (initSched [envSkip])
      ⟨[⟨envSkip, Phase.inFlight [Action.acquire]
          [Action.checkExists, Action.incr CKind.skipped, Action.release]⟩],
        ⟨0, 0, 0, 0, 0, 1⟩⟩ :=
    Step.work (initSched [envSkip]) 0 envSkip [] Action.acquire
      [Action.checkExists, Action.incr CKind.skipped, Action.release] rfl
      (fun _ => by decide)
  have st2 : Step MAX_CONCURRENT
      ⟨[⟨envSkip, Phase.inFlight [Action.acquire]
          [Action.checkExists, Action.incr CKind.skipped, Action.release]⟩],
        ⟨0, 0, 0, 0, 0, 1⟩⟩
      ⟨[⟨envSkip, Phase.inFlight [Action.acquire, Action.checkExists]
          [Action.incr CKind.skipped, Action.release]⟩], ⟨0, 0, 0, 0, 0, 1⟩⟩ :=
    Step.work _ 0 envSkip [Action.acquire] Action.checkExists
      [Action.incr CKind.skipped, Action.release] rfl (fun hx => nomatch hx)
  have st3 : Step MAX_CONCURRENT
      ⟨[⟨envSkip, Phase.inFlight [Action.acquire, Action.checkExists]
          [Action.incr CKind.skipped, Action.release]⟩], ⟨0, 0, 0, 0, 0, 1⟩⟩
      ⟨[⟨envSkip, Phase.inFlight
          [Action.acquire, Action.checkExists, Action.incr CKind.skipped]
          [Action.release]⟩], ⟨0, 0, 0, 1, 0, 1⟩⟩ :=
    Step.work _ 0 envSkip [Action.acquire, Action.checkExists]
      (Action.incr CKind.skipped) [Action.release] rfl (fun hx => nomatch hx)
  have st4 : Step MAX_CONCURRENT
      ⟨[⟨envSkip, Phase.inFlight
          [Action.acquire, Action.checkExists, Action.incr CKind.skipped]
          [Action.release]⟩], ⟨0, 0, 0, 1, 0, 1⟩⟩
      ⟨[⟨envSkip, Phase.inFlight
          [Action.acquire, Action.checkExists, Action.incr CKind.skipped, Action.release]
          []⟩], ⟨0, 0, 0, 1, 0, 1⟩⟩ :=
    Step.work _ 0 envSkip [Action.acquire, Action.checkExists, Action.incr CKind.skipped]
      Action.release [] rfl (fun hx => nomatch hx)
  have st5 : Step MAX_CONCURRENT
      ⟨[⟨envSkip, Phase.inFlight
          [Action.acquire, Action.checkExists, Action.incr CKind.skipped, Action.release]
          []⟩], ⟨0, 0, 0, 1, 0, 1⟩⟩
      sSkipFinal :=
    Step.finish _ 0 envSkip
      [Action.acquire, Action.checkExists, Action.incr CKind.skipped, Action.release] rfl
  exact Reach.tail (Reach.tail (Reach.tail (Reach.tail (Reach.tail Reach.refl st1) st2)
    st3) st4) st5

lemma complete_sSkipFinal : Complete sSkipFinal := by
  intro t ht
  simp only [sSkipFinal, List.mem_singleton] at ht
  subst ht
  rfl

/-- C1: counter conservation.  After any completed run — every submitted
task finished, under any interleaving and any mix of per-task outcomes —
`done + failed + missing + skipped = target`, where `target` was initialized
to the total task count, and every task performed exactly one counter
increment. -/
theorem counter_conservation (mc : Nat) (envs : List TaskEnv) (s : Sched)
    (h : Reach mc envs s) (hc : Complete s) :
    s.counters.done + s.counters.failed + s.counters.missing + s.counters.skipped =
        s.counters.target ∧
      s.counters.target = envs.length ∧
      ∀ e ∈ envs, incrCount (download_one e) = 1 := by
  obtain ⟨h1, h2, h3⟩ := reach_inv mc envs s h
  refine ⟨?_, by rw [h3], fun e _ => incrCount_download_one e⟩
  rw [h3]
  dsimp only
  rw [complete_fld envs s ⟨h1, h2, h3⟩ hc, complete_fld envs s ⟨h1, h2, h3⟩ hc,
    complete_fld envs s ⟨h1, h2, h3⟩ hc, complete_fld envs s ⟨h1, h2, h3⟩ hc]
  rw [lsum_add, lsum_add, lsum_add]
  rw [lsum_const _ _ 1 ?_, Nat.one_mul]
  intro e _
  exact incrCount_download_one e

theorem counter_conservation_witness :
    sSkipFinal.counters.done + sSkipFinal.counters.failed + sSkipFinal.counters.missing +
      sSkipFinal.counters.skipped = sSkipFinal.counters.target :=
  (counter_conservation MAX_CONCURRENT [envSkip] sSkipFinal reach_sSkipFinal
    complete_sSkipFinal).1

/-- C3: concurrency bound.  In every reachable state at most `mc` tasks hold
a network permit; when the run completes all permits have been released; and
every trace acquires exactly once, releases exactly once, with the release
as its final action on every exit path. -/
theorem concurrency_bound (mc : Nat) (envs : List TaskEnv) (s : Sched)
    (h : Reach mc envs s) :
    permitCount s ≤ mc ∧ (Complete s → permitCount s = 0) ∧
      ∀ e : TaskEnv, (download_one e).countP isAcq = 1 ∧
        (download_one e).countP isRel = 1 ∧
        (download_one e).getLast? = some Action.release :=
  ⟨reach_permit mc envs s h, fun hc => complete_permit s hc,
    fun e => ⟨countP_acq e, countP_rel e, getLast_download_one e⟩⟩

theorem concurrency_bound_witness :
    permitCount (initSched [envSkip]) ≤ MAX_CONCURRENT ∧
      (download_one envSkip).countP isAcq = 1 := by
  have h := concurrency_bound MAX_CONCURRENT [envSkip] (initSched [envSkip]) Reach.refl
  exact ⟨h.1, (h.2.2 envSkip).1⟩

/-- C4: resume/skip idempotence.  A task whose destination file already
exists performs exactly the resume check plus one `skipped` increment — no
network call, and the existing file content is left untouched; consequently
a completed run in which every task's file pre-exists ends with
`skipped = target` and zero network calls issued. -/
theorem resume_skip_idempotence (mc : Nat) (envs : List TaskEnv) (s : Sched)
    (h : Reach mc envs s) (hc : Complete s) (hall : ∀ e ∈ envs, e.fileExists = true) :
    s.counters.skipped = s.counters.target ∧ s.counters.target = envs.length ∧
      s.counters.net = 0 ∧
      ∀ e : TaskEnv, e.fileExists = true →
        download_one e =
          [Action.acquire, Action.checkExists, Action.incr CKind.skipped, Action.release] ∧
        ∀ f0, fileAfter e f0 = f0 := by
  obtain ⟨h1, h2, h3⟩ := reach_inv mc envs s h
  have hskip : fld (isIncrB CKind.skipped) s.tasks = envs.length := by
    rw [complete_fld envs s ⟨h1, h2, h3⟩ hc]
    rw [lsum_const _ _ 1 ?_, Nat.one_mul]
    intro e he
    have hfe : e.fileExists = true := hall e he
    obtain ⟨fe, b⟩ := e
    have hfe2 : fe = true := hfe
    subst hfe2
    rw [download_one_skip]
    decide
  have hnet : fld isNetB s.tasks = 0 := by
    rw [complete_fld envs s ⟨h1, h2, h3⟩ hc]
    rw [lsum_const _ _ 0 ?_, Nat.zero_mul]
    intro e he
    have hfe : e.fileExists = true := hall e he
    obtain ⟨fe, b⟩ := e
    have hfe2 : fe = true := hfe
    subst hfe2
    rw [download_one_skip]
    decide
  refine ⟨?_, by rw [h3], ?_, ?_⟩
  · rw [h3]
    dsimp only
    rw [hskip]
  · rw [h3]
    dsimp only
    exact hnet
  · intro e hfe
    obtain ⟨fe, b⟩ := e
    have hfe2 : fe = true := hfe
    subst hfe2
    exact ⟨download_one_skip b, fun f0 => fileAfter_skip b f0⟩

theorem resume_skip_idempotence_witness :
    sSkipFinal.counters.skipped = sSkipFinal.counters.target ∧
      sSkipFinal.counters.target = [envSkip].length ∧ sSkipFinal.counters.net = 0 := by
  have h := resume_skip_idempotence MAX_CONCURRENT [envSkip] sSkipFinal reach_sSkipFinal
    complete_sSkipFinal ?_
  · exact ⟨h.1, h.2.1, h.2.2.1⟩
  · intro e he
    simp only [List.mem_singleton] at he
    subst he
    rfl

/-- C5: status classification for a task that reaches the network phase.
HTTP 404 increments `missing` and creates no file; a status outside
{200, 404} emits a diagnostic line and increments `failed`, creating no
file; only HTTP 200 opens the file and streams the body, and `done` is
incremented exactly after the streamed write completes. -/
theorem status_classification (code : Nat) (body : List Nat) (abort : Option Bool) :
    (code = 404 →
      download_one ⟨false, NetBehavior.respond code body abort⟩ =
        [Action.acquire, Action.checkExists, Action.netCall, Action.incr CKind.missing,
          Action.release] ∧
      fileAfter ⟨false, NetBehavior.respond code body abort⟩ none = none) ∧
    (code ≠ 404 → code ≠ 200 →
      download_one ⟨false, NetBehavior.respond code body abort⟩ =
        [Action.acquire, Action.checkExists, Action.netCall, Action.printLine,
          Action.incr CKind.failed, Action.release] ∧
      fileAfter ⟨false, NetBehavior.respond code body abort⟩ none = none) ∧
    (code = 200 → abort = none →
      download_one ⟨false, NetBehavior.respond code body abort⟩ =
        [Action.acquire, Action.checkExists, Action.netCall, Action.openFile] ++
          body.map Action.writeChunk ++
          [Action.closeFile, Action.incr CKind.done, Action.printLine, Action.release] ∧
      fileAfter ⟨false, NetBehavior.respond code body abort⟩ none = some body) := by
  refine ⟨?_, ?_, ?_⟩
  · rintro rfl
    exact ⟨download_one_404 body abort, fileAfter_404 body abort none⟩
  · intro h4 h2
    exact ⟨download_one_err code body abort h4 h2, fileAfter_err code body abort h4 h2 none⟩
  · rintro rfl rfl
    exact ⟨download_one_ok body, fileAfter_ok body⟩

theorem status_classification_witness :
    (download_one ⟨false, NetBehavior.respond 404 [] none⟩ =
        [Action.acquire, Action.checkExists, Action.netCall, Action.incr CKind.missing,
          Action.release] ∧
      fileAfter ⟨false, NetBehavior.respond 404 [] none⟩ none = none) ∧
    (download_one ⟨false, NetBehavior.respond 500 [] none⟩ =
        [Action.acquire, Action.checkExists, Action.netCall, Action.printLine,
          Action.incr CKind.failed, Action.release] ∧
      fileAfter ⟨false, NetBehavior.respond 500 [] none⟩ none = none) ∧
    (download_one ⟨false, NetBehavior.respond 200 [3] none⟩ =
        [Action.acquire, Action.checkExists, Action.netCall, Action.openFile] ++
          [3].map Action.writeChunk ++
          [Action.closeFile, Action.incr CKind.done, Action.printLine, Action.release] ∧
      fileAfter ⟨false, NetBehavior.respond 200 [3] none⟩ none = some [3]) :=
  ⟨(status_classification 404 [] none).1 rfl,
    (status_classification 500 [] none).2.1 (by decide) (by decide),
    (status_classification 200 [3] none).2.2 rfl rfl⟩

/-- C6: failure isolation.  Every timeout and every other transport fault —
raised during the request or mid-stream during the write — is caught inside
the worker and classified as exactly one `failed` increment, with a
diagnostic line logged; and the run never wedges: any incomplete reachable
state (under a positive concurrency cap) can always take another step, so
no per-task error propagates to the scheduler or aborts the run. -/
theorem failure_isolation (mc : Nat) (envs : List TaskEnv) (s : Sched)
    (h : Reach mc envs s) :
    (∀ e : TaskEnv, e.fileExists = false → isFaulty e.behavior = true →
      (download_one e).countP (isIncrB CKind.failed) = 1 ∧
      incrCount (download_one e) = 1 ∧ Action.printLine ∈ download_one e) ∧
    (0 < mc → ¬ Complete s → CanStep mc s) := by
  refine ⟨?_, fun hmc hnc => reach_progress mc envs s h hmc hnc⟩
  intro e hfe hfty
  obtain ⟨fe, b⟩ := e
  have hfe2 : fe = false := hfe
  subst hfe2
  cases b with
  | timeout =>
    rw [download_one_timeoutE]
    exact ⟨by decide, by decide, by decide⟩
  | fault =>
    rw [download_one_faultE]
    exact ⟨by decide, by decide, by decide⟩
  | respond code body abort =>
    cases abort with
    | none => simp [isFaulty] at hfty
    | some bb =>
      have hcode : code = 200 := by simpa [isFaulty] using hfty
      subst hcode
      refine ⟨?_, ?_, ?_⟩
      · rw [download_one_abort, List.countP_append, List.countP_append,
          countP_chunks_incr]
        decide
      · rw [download_one_abort, incrCount_append, incrCount_append, incrCount_chunks]
        decide
      · rw [download_one_abort]
        simp

theorem failure_isolation_witness :
    (download_one ⟨false, NetBehavior.timeout⟩).countP (isIncrB CKind.failed) = 1 ∧
      Action.printLine ∈ download_one ⟨false, NetBehavior.timeout⟩ ∧
      CanStep MAX_CONCURRENT (initSched [⟨false, NetBehavior.timeout⟩]) := by
  have h := failure_isolation MAX_CONCURRENT [⟨false, NetBehavior.timeout⟩] _ Reach.refl
  refine ⟨(h.1 ⟨false, NetBehavior.timeout⟩ rfl rfl).1,
    (h.1 ⟨false, NetBehavior.timeout⟩ rfl rfl).2.2, h.2 (by decide) ?_⟩
  intro hcomp
  exact nomatch hcomp ⟨⟨false, NetBehavior.timeout⟩,
    Phase.inFlight [] (download_one ⟨false, NetBehavior.timeout⟩)⟩ (by simp [initSched])

/-- Whether the trace performs the resume check before consuming a permit. -/
def checkBeforeAcquire : List Action → Bool
  | [] => false
  | Action.checkExists :: _ => true
  | Action.acquire :: _ => false
  | _ :: rest => checkBeforeAcquire rest

/-- C7 (counterexample): the claim states that the resume check runs without
consuming a concurrency permit, i.e. that the `destinationPath` existence
test precedes the permit acquisition.  In the source, `async with semaphore:`
wraps the whole worker body including the resume check, so at this concrete
task environment the acquire comes first and the claim is false. -/
theorem permit_gating_scope_cex : checkBeforeAcquire (download_one envSkip) = false := rfl

/-- C7 (amended): the resume check does consume a permit — every worker
trace acquires the permit as its very first action, performs the resume
check second (before any network activity), and releases the permit as its
final action on every exit path. -/
theorem permit_gating_scope_amended (e : TaskEnv) :
    checkBeforeAcquire (download_one e) = false ∧
    download_one e =
      Action.acquire :: Action.checkExists ::
        ((if e.fileExists then [Action.incr CKind.skipped]
          else Action.netCall :: netPart e.behavior) ++ [Action.release]) ∧
    (download_one e).getLast? = some Action.release :=
  ⟨rfl, rfl, getLast_download_one e⟩

/-- C9: partial-write residue.  If the streamed write aborts mid-transfer
(timeout or fault after the file was opened), the worker increments
`failed`, and the partially written file — holding exactly the chunks that
streamed before the abort — remains at the destination: no action of the
trace deletes or truncates it. -/
theorem partial_write_residue (body : List Nat) (isTO : Bool) :
    download_one ⟨false, NetBehavior.respond 200 body (some isTO)⟩ =
      [Action.acquire, Action.checkExists, Action.netCall, Action.openFile] ++
        body.map Action.writeChunk ++
        [Action.closeFile, Action.printLine, Action.incr CKind.failed, Action.release] ∧
    fileAfter ⟨false, NetBehavior.respond 200 body (some isTO)⟩ none = some body ∧
    (download_one ⟨false, NetBehavior.respond 200 body (some isTO)⟩).countP
      (isIncrB CKind.failed) = 1 :=
  ⟨download_one_abort body isTO, fileAfter_abort body isTO, by
    rw [download_one_abort, List.countP_append, List.countP_append, countP_chunks_incr]
    decide⟩

/-- C10: the `target` counter is written once at initialization (to the task
count) and no worker action ever modifies it: in every reachable state it
still equals the task count, and `applyAction` leaves it unchanged for every
action. -/
theorem target_immutable (mc : Nat) (envs : List TaskEnv) (s : Sched)
    (h : Reach mc envs s) :
    s.counters.target = envs.length ∧
      (initSched envs).counters.target = envs.length ∧
      ∀ (c : Counters) (a : Action), (applyAction c a).target = c.target := by
  obtain ⟨-, -, h3⟩ := reach_inv mc envs s h
  refine ⟨by rw [h3], rfl, ?_⟩
  intro c a
  cases a with
  | acquire => rfl
  | release => rfl
  | checkExists => rfl
  | netCall => rfl
  | openFile => rfl
  | writeChunk n => rfl
  | closeFile => rfl
  | printLine => rfl
  | incr k => cases k <;> rfl

theorem target_immutable_witness :
    (initSched [envSkip]).counters.target = [envSkip].length :=
  (target_immutable MAX_CONCURRENT [envSkip] (initSched [envSkip]) Reach.refl).1

end Sdss
